import Mathlib

/-!
# Verification of the Realtime Voice Gateway

A shallow embedding of the voice-companion backend (audio codec, Deepgram STT
client, OpenAI LLM sentence streaming, and the realtime gateway state machine)
together with theorems settling the specification claims.

Python text is modelled over `List Char`; machine integers over `Nat`/`Int`
with explicit masking where the source masks; fallible operations return
`Except`.
-/

set_option autoImplicit false
set_option maxRecDepth 4000

/-! ## Python-style text helpers -/

/-- Python's `\s` character class restricted to the ASCII whitespace characters
(space, tab, newline, carriage return, vertical tab, form feed); the same set
is stripped by `str.strip()` on the texts handled here. -/
def isPySpace (c : Char) : Bool :=
  c == ' ' || c == '\t' || c == '\n' || c == '\r' || c == '\x0b' || c == '\x0c'

/-- Python `str.lstrip()` over `List Char`. -/
def stripLeft (l : List Char) : List Char := l.dropWhile isPySpace

/-- Python `str.rstrip()` over `List Char`. -/
def stripRight (l : List Char) : List Char := (l.reverse.dropWhile isPySpace).reverse

/-- Python `str.strip()` over `List Char`. -/
def pyStrip (l : List Char) : List Char := stripRight (stripLeft l)

/-- `True` when the list does not end with a whitespace character. -/
def no_trailing_space (l : List Char) : Bool :=
  match l.getLast? with
  | none => true
  | some c => !isPySpace c

/-! ## Audio codec (`app/services/audio_utils.py`) -/

/-- Entry `i` of `ULAW_TO_PCM_TABLE`, as computed by `_build_ulaw_table`:
invert the bits of the byte (`~i & 0xFF`, i.e. `i ^^^ 0xFF` for a byte),
split into sign / exponent / mantissa, rebuild the biased linear value and
remove the bias, then apply the sign. -/
def ulaw_to_pcm_table (i : Nat) : Int :=
  let ulaw_byte := i ^^^ 0xFF
  let sign := ulaw_byte &&& 0x80
  let exponent := (ulaw_byte >>> 4) &&& 0x07
  let mantissa := ulaw_byte &&& 0x0F
  let linear : Nat := (((mantissa <<< 3) + 0x84) <<< exponent) - 0x84
  if sign ≠ 0 then -(linear : Int) else (linear : Int)

/-- The exponent-search loop of `_pcm_to_ulaw_sample`: starting from
exponent 7 and mask `0x4000`, decrement while the exponent is positive and
the masked bit of the biased sample is clear. -/
def findExponent : Nat → Nat → Nat → Nat
  | 0, _, _ => 0
  | e + 1, mask, sample =>
    if sample &&& mask ≠ 0 then e + 1 else findExponent e (mask >>> 1) sample

/-- `_pcm_to_ulaw_sample`: sign, clip at `ULAW_CLIP = 32635`, add bias
`0x84`, locate the exponent, take the 4-bit mantissa, combine and invert. -/
def pcm_to_ulaw_sample (sample : Int) : Nat :=
  let sign : Nat := if sample < 0 then 0x80 else 0
  let mag : Int := if sample < 0 then -sample else sample
  let clipped : Int := if mag > 32635 then 32635 else mag
  let biased : Nat := (clipped + 0x84).toNat
  let exponent := findExponent 7 0x4000 biased
  let mantissa := (biased >>> (exponent + 3)) &&& 0x0F
  (sign ||| (exponent <<< 4) ||| mantissa) ^^^ 0xFF

/-- Two's-complement signed 16-bit value from a little-endian byte pair,
as produced by `struct.unpack('<h', ...)`. -/
def toSigned16 (lo hi : Nat) : Int :=
  let v := lo + 256 * hi
  if v < 0x8000 then (v : Int) else (v : Int) - 0x10000

/-- Unpack an (even-length) little-endian 16-bit PCM byte list into samples. -/
def unpack16le : List Nat → List Int
  | lo :: hi :: rest => toSigned16 lo hi :: unpack16le rest
  | _ => []

/-- Pack one signed 16-bit sample little-endian, as `struct.pack('<h', ...)`. -/
def packSigned16 (v : Int) : List Nat :=
  let u := (v % 65536).toNat
  [u % 256, u / 256]

/-- `ulaw_to_pcm`: map every μ-law byte through the lookup table and pack the
results as 16-bit signed little-endian bytes. Total. -/
def ulaw_to_pcm (ulaw_bytes : List Nat) : List Nat :=
  (ulaw_bytes.map ulaw_to_pcm_table).flatMap packSigned16

/-- `pcm_to_ulaw`: `struct.unpack(f'<{num_samples}h', pcm_bytes)` requires the
buffer length to equal `2 * num_samples` exactly, so an odd-length input
raises `struct.error`; the error is modelled as `Except.error`. -/
def pcm_to_ulaw (pcm_bytes : List Nat) : Except String (List Nat) :=
  if pcm_bytes.length % 2 = 0 then
    .ok ((unpack16le pcm_bytes).map pcm_to_ulaw_sample)
  else
    .error "struct.error"

/-- Value of a base64 alphabet character, `none` for other characters. -/
def b64Val (c : Char) : Option Nat :=
  if 'A' ≤ c ∧ c ≤ 'Z' then some (c.toNat - 65)
  else if 'a' ≤ c ∧ c ≤ 'z' then some (c.toNat - 71)
  else if '0' ≤ c ∧ c ≤ '9' then some (c.toNat + 4)
  else if c = '+' then some 62
  else if c = '/' then some 63
  else none

/-- Decode base64 in 4-character groups; `=` padding is accepted only at the
end of the final group, and any leftover group of fewer than four characters
is the `binascii.Error` (incorrect padding) raised by CPython. -/
def b64DecodeGroups : List Char → Except String (List Nat)
  | [] => .ok []
  | a :: b :: c :: d :: rest =>
    match b64Val a, b64Val b with
    | some va, some vb =>
      let b1 := ((va <<< 2) ||| (vb >>> 4)) &&& 0xFF
      if c = '=' then
        if d = '=' ∧ rest = [] then .ok [b1] else .error "binascii.Error"
      else
        match b64Val c with
        | some vc =>
          let b2 := (((vb &&& 0xF) <<< 4) ||| (vc >>> 2)) &&& 0xFF
          if d = '=' then
            if rest = [] then .ok [b1, b2] else .error "binascii.Error"
          else
            match b64Val d with
            | some vd =>
              let b3 := (((vc &&& 0x3) <<< 6) ||| vd) &&& 0xFF
              (b64DecodeGroups rest).map fun tail => b1 :: b2 :: b3 :: tail
            | none => .error "binascii.Error"
        | none => .error "binascii.Error"
    | _, _ => .error "binascii.Error"
  | _ => .error "binascii.Error"

/-- CPython `base64.b64decode` with default `validate=False`: characters
outside the alphabet and `=` are discarded first, then the groups are
decoded; an ill-formed remainder raises `binascii.Error`. -/
def b64decode (s : String) : Except String (List Nat) :=
  b64DecodeGroups (s.toList.filter fun c => (b64Val c).isSome || c == '=')

/-- `base64_ulaw_to_pcm`: `base64.b64decode` (no exception handling in the
source) followed by `ulaw_to_pcm`; a decode error propagates to the caller. -/
def base64_ulaw_to_pcm (s : String) : Except String (List Nat) :=
  (b64decode s).map ulaw_to_pcm

deriving instance DecidableEq for Except

/-- `True` exactly on the `ok` branch of an `Except`. -/
def exceptOk {ε α : Type} : Except ε α → Bool
  | .ok _ => true
  | .error _ => false

/-! ### C7: μ-law round trip -/

/-- C7 counterexample: the claim states encode ∘ decode is the identity on
every byte `0..255`, but the "negative zero" code `0x7F` decodes to the PCM
sample `0`, which re-encodes to `0xFF`, not `0x7F`. -/
theorem c7_ulaw_roundtrip_counterexample :
    pcm_to_ulaw_sample (ulaw_to_pcm_table 0x7F) ≠ 0x7F := by decide

/-- C7 (amended): μ-law encode ∘ decode is the identity on every byte except
`0x7F`; the negative-zero byte `0x7F` decodes to PCM sample `0` and
re-encodes to `0xFF` (the positive-zero code). -/
theorem c7_ulaw_roundtrip_amended :
    (∀ b : Nat, b < 256 → b ≠ 0x7F →
      pcm_to_ulaw_sample (ulaw_to_pcm_table b) = b) ∧
    pcm_to_ulaw_sample (ulaw_to_pcm_table 0x7F) = 0xFF := by
  constructor
  · decide
  · decide

/-- C7 witness: the round trip at the concrete byte `0x2A`. -/
theorem c7_ulaw_roundtrip_witness :
    pcm_to_ulaw_sample (ulaw_to_pcm_table 0x2A) = 0x2A :=
  c7_ulaw_roundtrip_amended.1 0x2A (by decide) (by decide)

/-! ### C9: codec error handling -/

/-- C9 counterexample: the claim states that an odd-length PCM input is
truncated (here `[0, 0, 0]` would convert its first sample `0` to `0xFF`)
and that an invalid base64 string (here `"A"`) yields empty bytes; instead
both operations surface an error. -/
theorem c9_codec_error_counterexample :
    pcm_to_ulaw [0, 0, 0] ≠ .ok [pcm_to_ulaw_sample 0] ∧
    base64_ulaw_to_pcm "A" ≠ .ok [] := by
  constructor
  · decide
  · decide

/-- C9 (amended): the codec operations are pure and succeed exactly on
well-formed input, but malformed input raises instead of being handled:
`pcm_to_ulaw` succeeds iff the PCM byte length is even (an odd length raises
`struct.error` rather than truncating), and `base64_ulaw_to_pcm` propagates
the `binascii.Error` of an invalid base64 payload (such as `"A"`) rather
than returning empty bytes, while valid base64 decodes through
`ulaw_to_pcm`. -/
theorem c9_codec_error_amended :
    (∀ pcm_bytes : List Nat,
      exceptOk (pcm_to_ulaw pcm_bytes) = true ↔ pcm_bytes.length % 2 = 0) ∧
    base64_ulaw_to_pcm "A" = .error "binascii.Error" ∧
    base64_ulaw_to_pcm "AAAA" = .ok (ulaw_to_pcm [0, 0, 0]) := by
  refine ⟨fun pcm_bytes => ?_, by decide, by decide⟩
  unfold pcm_to_ulaw
  by_cases h : pcm_bytes.length % 2 = 0 <;> simp [h, exceptOk]

/-- C9 witness: an even-length input converts successfully. -/
theorem c9_codec_error_witness :
    exceptOk (pcm_to_ulaw [0, 0]) = true :=
  (c9_codec_error_amended.1 [0, 0]).mpr (by decide)

/-! ## Gateway state (`app/services/realtime_gateway.py`) -/

/-- The four gateway states of `GatewayState`. -/
inductive GatewayState where
  | idle
  | listening
  | thinking
  | speaking
deriving DecidableEq, Repr

/-- The gateway fields involved in turn management, barge-in and transport
egress.  `sent` is the observation log of media messages delivered at
transport egress (pairs of turn-id tag and raw μ-law payload); wall-clock
times are in milliseconds. -/
structure GwState where
  state : GatewayState
  cancelled : Bool
  current_turn_id : Nat
  audio_sent_count : Nat
  consecutive_speech_frames : Nat
  audio_playing_until : Int
  sent : List (Nat × List Nat)
deriving DecidableEq, Repr

/-- `RealtimeGateway.__init__` field values. -/
def init_gateway : GwState :=
  { state := .idle
    cancelled := false
    current_turn_id := 0
    audio_sent_count := 0
    consecutive_speech_frames := 0
    audio_playing_until := 0
    sent := [] }

/-- `self._vad_threshold`. -/
def vad_threshold : Nat := 1200

/-- `self._min_audio_before_bargein`. -/
def min_audio_before_bargein : Nat := 20

/-- `_handle_barge_in`: set the cancellation flag, reset
`_audio_playing_until`, clear the transport buffer, cancel LLM/TTS, and
return to `LISTENING`.  The turn id is deliberately not changed. -/
def handle_barge_in (g : GwState) : GwState :=
  { g with cancelled := true, audio_playing_until := 0, state := .listening }

/-- The barge-in permission check shared by `receive_audio`,
`_on_speech_started` and `_on_transcript`: `(state == SPEAKING or
audio_still_playing) and audio_sent_count >= min_audio_before_bargein`. -/
def can_bargein (g : GwState) (now : Int) : Bool :=
  (decide (g.state = .speaking) || decide (now < g.audio_playing_until)) &&
  decide (min_audio_before_bargein ≤ g.audio_sent_count)

/-- The comparison `energy > vad_threshold` of `receive_audio`, where
`energy` is the RMS computed by `_calculate_audio_energy` over the decoded
16-bit samples.  For a nonnegative threshold `t`, `sqrt (Σ s² / n) > t` iff
`t² · n < Σ s²`, which is the integer form used here (an empty or
sub-sample-size frame has energy `0.0` and never exceeds the threshold). -/
def rms_exceeds (samples : List Int) (threshold : Nat) : Bool :=
  decide ((threshold * threshold : Int) * samples.length <
    (samples.map fun s => s * s).sum)

/-- `receive_audio` (lines 195-236), for one inbound frame already decoded
to PCM samples: when barge-in is permitted, a frame above the VAD threshold
increments `_consecutive_speech_frames`, and the third consecutive such
frame invokes `_handle_barge_in` (then resets the counter); a quiet frame
resets the counter; when barge-in is not permitted the counter is left
untouched.  Returns the new state and whether the barge-in handler ran. -/
def receive_audio (g : GwState) (samples : List Int) (now : Int) :
    GwState × Bool :=
  if can_bargein g now then
    if rms_exceeds samples vad_threshold then
      let c := g.consecutive_speech_frames + 1
      if 3 ≤ c then
        let g' := handle_barge_in { g with consecutive_speech_frames := c }
        ({ g' with consecutive_speech_frames := 0 }, true)
      else ({ g with consecutive_speech_frames := c }, false)
    else ({ g with consecutive_speech_frames := 0 }, false)
  else (g, false)

/-- `_on_speech_started` (lines 310-328): barge in iff the shared permission
check passes. -/
def on_speech_started (g : GwState) (now : Int) : GwState × Bool :=
  if can_bargein g now then (handle_barge_in g, true) else (g, false)

/-- The turn-id bookkeeping at the top of `_process_turn` (lines 405-415):
increment `_current_turn_id` first, capture the new value as `my_turn_id`,
then reset the cancellation flag and the turn-local counters (the state
moves to `THINKING` just after).  Returns the new state and `my_turn_id`. -/
def process_turn_entry (g : GwState) : GwState × Nat :=
  let g' := { g with
    current_turn_id := g.current_turn_id + 1
    cancelled := false
    audio_sent_count := 0
    consecutive_speech_frames := 0
    audio_playing_until := 0
    state := .thinking }
  (g', g'.current_turn_id)

/-- `n` successive `_process_turn` entries starting from a fresh gateway. -/
def iterate_process_turns : Nat → GwState
  | 0 => init_gateway
  | n + 1 => (process_turn_entry (iterate_process_turns n)).1

/-- The guard at the top of the per-turn `on_sentence` callback
(lines 435-439): the callback acts unless the cancellation flag is set or
the current turn id differs from the captured `my_turn_id`. -/
def on_sentence_acts (g : GwState) (my_turn_id : Nat) : Bool :=
  !(g.cancelled || decide (g.current_turn_id ≠ my_turn_id))

/-- `send_audio_to_twilio` of `app/routers/twilio_webhook.py`
(lines 151-202): drop the chunk silently when the cancellation flag is set
or the tagged turn id differs from the current turn id; otherwise (with the
stream established and a non-empty payload) send the media message, count
the chunk, and push `_audio_playing_until` to the estimated playback end
(payload duration at 8 kHz plus a 500 ms network buffer). -/
def send_audio_to_twilio (g : GwState) (audio_turn_id : Nat)
    (payload : List Nat) (now : Int) : GwState :=
  if g.cancelled then g
  else if audio_turn_id ≠ g.current_turn_id then g
  else if payload ≠ [] then
    let audio_duration_ms : Int := (payload.length : Int) * 1000 / 8000
    let expected_end := now + audio_duration_ms + 500
    { g with
      sent := g.sent ++ [(audio_turn_id, payload)]
      audio_sent_count := g.audio_sent_count + 1
      audio_playing_until :=
        if g.audio_playing_until < expected_end then expected_end
        else g.audio_playing_until }
  else g

/-- The gateway events that touch the turn/cancellation/egress fields. -/
inductive GwEvent where
  | turnStart
  | bargeIn
  | sendAudio (audio_turn_id : Nat) (payload : List Nat) (now : Int)
deriving DecidableEq, Repr

/-- One gateway event step. -/
def gw_step (g : GwState) : GwEvent → GwState
  | .turnStart => (process_turn_entry g).1
  | .bargeIn => handle_barge_in g
  | .sendAudio tag payload now => send_audio_to_twilio g tag payload now

/-- Run a sequence of gateway events. -/
def gw_run (g : GwState) : List GwEvent → GwState
  | [] => g
  | e :: es => gw_run (gw_step g e) es

/-- Turn `t` is stale: the gateway has moved past it, or it is the current
turn and the cancellation flag is set. -/
def TurnStale (t : Nat) (g : GwState) : Prop :=
  t < g.current_turn_id ∨ (g.current_turn_id = t ∧ g.cancelled = true)

theorem send_audio_preserves (g : GwState) (tag : Nat) (payload : List Nat)
    (now : Int) :
    (send_audio_to_twilio g tag payload now).cancelled = g.cancelled ∧
    (send_audio_to_twilio g tag payload now).current_turn_id =
      g.current_turn_id := by
  unfold send_audio_to_twilio
  split
  · exact ⟨rfl, rfl⟩
  · split
    · exact ⟨rfl, rfl⟩
    · split
      · exact ⟨rfl, rfl⟩
      · exact ⟨rfl, rfl⟩

theorem turnStale_step {t : Nat} {g : GwState} (h : TurnStale t g)
    (e : GwEvent) : TurnStale t (gw_step g e) := by
  cases e with
  | turnStart =>
    left
    rcases h with h | ⟨h, _⟩
    · exact Nat.lt_succ_of_lt h
    · exact h ▸ Nat.lt_succ_self t
  | bargeIn =>
    rcases h with h | ⟨h, _⟩
    · exact Or.inl h
    · exact Or.inr ⟨h, rfl⟩
  | sendAudio tag payload now =>
    have hp := send_audio_preserves g tag payload now
    unfold TurnStale at h ⊢
    rw [show gw_step g (.sendAudio tag payload now) =
      send_audio_to_twilio g tag payload now from rfl, hp.1, hp.2]
    exact h

theorem sent_of_step {t : Nat} {g : GwState} (h : TurnStale t g)
    (e : GwEvent) {x : Nat × List Nat} (hx : x ∈ (gw_step g e).sent) :
    x ∈ g.sent ∨ x.1 ≠ t := by
  cases e with
  | turnStart => exact Or.inl hx
  | bargeIn => exact Or.inl hx
  | sendAudio tag payload now =>
    simp only [gw_step] at hx
    by_cases hc : g.cancelled = true
    · rw [show send_audio_to_twilio g tag payload now = g by
        unfold send_audio_to_twilio; simp [hc]] at hx
      exact Or.inl hx
    · rw [Bool.not_eq_true] at hc
      rcases h with hlt | ⟨_, hcanc⟩
      · by_cases htag : tag = g.current_turn_id
        · by_cases hpl : payload = []
          · rw [show send_audio_to_twilio g tag payload now = g by
              unfold send_audio_to_twilio; simp [hc, htag, hpl]] at hx
            exact Or.inl hx
          · have hsent : (send_audio_to_twilio g tag payload now).sent =
                g.sent ++ [(tag, payload)] := by
              unfold send_audio_to_twilio
              simp [hc, htag, hpl]
            rw [hsent] at hx
            rcases List.mem_append.mp hx with h₁ | h₂
            · exact Or.inl h₁
            · right
              rcases List.mem_singleton.mp h₂ with rfl
              intro hxt
              rw [show (tag, payload).1 = tag from rfl] at hxt
              omega
        · rw [show send_audio_to_twilio g tag payload now = g by
            unfold send_audio_to_twilio; simp [hc, htag]] at hx
          exact Or.inl hx
      · rw [hcanc] at hc
        exact absurd hc (by simp)

theorem sent_of_run {t : Nat} {g : GwState} (h : TurnStale t g)
    (evs : List GwEvent) {x : Nat × List Nat}
    (hx : x ∈ (gw_run g evs).sent) : x ∈ g.sent ∨ x.1 ≠ t := by
  induction evs generalizing g with
  | nil => exact Or.inl hx
  | cons e es ih =>
    rcases ih (turnStale_step h e) hx with h₁ | h₂
    · exact sent_of_step h e h₁
    · exact Or.inr h₂

/-! ### C1: egress guard and barge-in completeness -/

/-- C1: a chunk handed to `send_audio_to_twilio` is delivered at transport
egress only if the cancellation flag is unset and its tagged turn id equals
the current turn id at that moment; consequently, after a barge-in cancels
turn `t`, no chunk tagged `t` is added to the egress log by any later
events. -/
theorem c1_transport_egress_guard :
    (∀ (g : GwState) (tag : Nat) (payload : List Nat) (now : Int),
      (g.cancelled = true ∨ tag ≠ g.current_turn_id) →
      send_audio_to_twilio g tag payload now = g) ∧
    (∀ (g : GwState) (evs : List GwEvent) (t : Nat) (x : Nat × List Nat),
      g.current_turn_id = t →
      x ∈ (gw_run (gw_step g .bargeIn) evs).sent →
      x ∈ g.sent ∨ x.1 ≠ t) := by
  constructor
  · intro g tag payload now h
    unfold send_audio_to_twilio
    rcases h with h | h
    · simp [h]
    · by_cases hc : g.cancelled <;> simp [hc, h]
  · intro g evs t x ht hx
    have hstale : TurnStale t (gw_step g .bargeIn) := Or.inr ⟨ht, rfl⟩
    have : x ∈ (gw_step g .bargeIn).sent ∨ x.1 ≠ t := sent_of_run hstale evs hx
    exact this

/-- C1 witness: turn 1 sends a chunk, barge-in cancels it, a later turn 2
sends another chunk; the theorem applied to the concrete trace shows the
post-barge-in chunk is not tagged 1. -/
theorem c1_transport_egress_guard_witness :
    send_audio_to_twilio init_gateway 1 [5] 0 = init_gateway ∧
    ((2, [7]) ∈ (gw_run init_gateway [.turnStart, .sendAudio 1 [5] 0]).sent ∨
      (2, [7]).1 ≠ 1) :=
  ⟨c1_transport_egress_guard.1 init_gateway 1 [5] 0 (Or.inr (by decide)),
   c1_transport_egress_guard.2
     (gw_run init_gateway [.turnStart, .sendAudio 1 [5] 0])
     [.turnStart, .sendAudio 2 [7] 0] 1 (2, [7]) (by decide) (by decide)⟩

/-! ### C2: turn-id capture order -/

/-- C2 counterexample: on entry to `_process_turn` with the gateway's turn
id at its initial value `0`, the claim says `my_turn_id` captures the
current id `0` before the increment; the code increments first and captures
`my_turn_id = 1`. -/
theorem c2_turn_id_counterexample :
    (process_turn_entry init_gateway).2 ≠ init_gateway.current_turn_id := by
  decide

/-- C2 (amended): `_process_turn` increments the gateway's turn id first and
then captures the new value into `my_turn_id`, so `my_turn_id` equals the
post-increment current id; the id is incremented exactly once per entry
starting from 0 (the n-th processed turn has id n); and the per-turn
`on_sentence` guard lets the callback act exactly when the cancellation flag
is unset and the current turn id equals `my_turn_id`. -/
theorem c2_turn_id_amended :
    (∀ g : GwState,
      (process_turn_entry g).1.current_turn_id = g.current_turn_id + 1 ∧
      (process_turn_entry g).2 = g.current_turn_id + 1 ∧
      (process_turn_entry g).1.cancelled = false) ∧
    (∀ n : Nat, (iterate_process_turns n).current_turn_id = n) ∧
    (∀ (g : GwState) (my_turn_id : Nat),
      on_sentence_acts g my_turn_id =
        (!g.cancelled && decide (g.current_turn_id = my_turn_id))) := by
  refine ⟨fun g => ⟨rfl, rfl, rfl⟩, ?_, fun g my => ?_⟩
  · intro n
    induction n with
    | zero => rfl
    | succ n ih => simpa [iterate_process_turns, process_turn_entry] using ih
  · unfold on_sentence_acts
    by_cases hc : g.cancelled <;> by_cases ht : g.current_turn_id = my <;>
      simp [hc, ht]

/-! ### C3: VAD barge-in gating in `receive_audio` -/

/-- C3: the inbound audio handler invokes the barge-in handler for a frame
iff barge-in is permitted at that moment — the state is `SPEAKING` or the
wall clock is before `_audio_playing_until`, and at least
`min_audio_before_bargein` (20) chunks have been sent — and the frame
exceeds the VAD energy threshold as the 3rd consecutive loud frame; in
particular no frame arriving with fewer than 20 chunks sent ever invokes
it. -/
theorem c3_vad_bargein_gate :
    (∀ (g : GwState) (samples : List Int) (now : Int),
      (receive_audio g samples now).2 = true ↔
        ((g.state = .speaking ∨ now < g.audio_playing_until) ∧
         min_audio_before_bargein ≤ g.audio_sent_count ∧
         rms_exceeds samples vad_threshold = true ∧
         3 ≤ g.consecutive_speech_frames + 1)) ∧
    (∀ (g : GwState) (samples : List Int) (now : Int),
      g.audio_sent_count < min_audio_before_bargein →
      (receive_audio g samples now).2 = false) := by
  have hsnd : ∀ (g : GwState) (samples : List Int) (now : Int),
      (receive_audio g samples now).2 =
        (can_bargein g now && rms_exceeds samples vad_threshold &&
          decide (3 ≤ g.consecutive_speech_frames + 1)) := by
    intro g samples now
    unfold receive_audio
    by_cases h₁ : can_bargein g now = true
    · by_cases h₂ : rms_exceeds samples vad_threshold = true
      · by_cases h₃ : 3 ≤ g.consecutive_speech_frames + 1
        · simp [h₁, h₂, h₃]
        · simp [h₁, h₂, h₃]
      · rw [Bool.not_eq_true] at h₂
        simp [h₁, h₂]
    · rw [Bool.not_eq_true] at h₁
      simp [h₁]
  have main : ∀ (g : GwState) (samples : List Int) (now : Int),
      (receive_audio g samples now).2 = true ↔
        ((g.state = .speaking ∨ now < g.audio_playing_until) ∧
         min_audio_before_bargein ≤ g.audio_sent_count ∧
         rms_exceeds samples vad_threshold = true ∧
         3 ≤ g.consecutive_speech_frames + 1) := by
    intro g samples now
    rw [hsnd]
    simp only [can_bargein, Bool.and_eq_true, Bool.or_eq_true,
      decide_eq_true_eq]
    tauto
  refine ⟨main, fun g samples now h => ?_⟩
  rw [Bool.eq_false_iff]
  intro htrue
  have := ((main g samples now).mp htrue).2.1
  omega

/-- C3 witness: a loud 3rd consecutive frame while speaking with 20 chunks
sent triggers barge-in; with only 19 chunks sent it does not. -/
theorem c3_vad_bargein_gate_witness :
    (receive_audio
      { state := .speaking, cancelled := false, current_turn_id := 1,
        audio_sent_count := 20, consecutive_speech_frames := 2,
        audio_playing_until := 0, sent := [] } [2000, 2000] 0).2 = true ∧
    (receive_audio
      { state := .speaking, cancelled := false, current_turn_id := 1,
        audio_sent_count := 19, consecutive_speech_frames := 2,
        audio_playing_until := 0, sent := [] } [2000, 2000] 0).2 = false :=
  ⟨(c3_vad_bargein_gate.1 _ [2000, 2000] 0).mpr
      ⟨Or.inl rfl, by decide, by decide, by decide⟩,
   c3_vad_bargein_gate.2 _ [2000, 2000] 0 (by decide)⟩

/-! ## Deepgram STT client (`app/services/deepgram_stt.py`) -/

/-- The fields of `TranscriptEvent` read by the state machine (`text`,
`is_final`, `speech_final`; the float timing/confidence fields are read by
no consumer modelled here and are omitted). -/
structure TranscriptEvent where
  text : List Char
  is_final : Bool
  speech_final : Bool
deriving DecidableEq, Repr

/-- The Deepgram server messages dispatched by `_handle_message`, keyed by
their `type` field.  A `Results` message carries the `alternatives` list
(each alternative reduced to its transcript text) and the `is_final` /
`speech_final` flags. -/
inductive DeepgramMessage where
  | results (alternatives : List (List Char)) (is_final : Bool)
      (speech_final : Bool)
  | utteranceEnd
  | speechStarted
  | metadata
  | errorMsg
deriving DecidableEq, Repr

/-- `DeepgramSTT._handle_message` (lines 167-231), as the list of events it
delivers to the `on_transcript` callback: a `Results` message publishes one
event with the stripped transcript of the first alternative only when that
stripped text is non-empty; `UtteranceEnd` publishes the synthetic
`TranscriptEvent(text="", is_final=True, speech_final=True)`;
`SpeechStarted`, `Metadata` and `Error` only log and publish nothing. -/
def handle_message : DeepgramMessage → List TranscriptEvent
  | .results alternatives is_final speech_final =>
    match alternatives with
    | [] => []
    | alt :: _ =>
      let text := pyStrip alt
      if text ≠ [] then [⟨text, is_final, speech_final⟩] else []
  | .utteranceEnd => [⟨[], true, true⟩]
  | .speechStarted => []
  | .metadata => []
  | .errorMsg => []

/-! ### C4: SpeechStarted is never published (code bug) -/

/-- C4 (code-bug evidence): a `SpeechStarted` message delivers no event to
the state machine — `_handle_message` only logs it, and
`DeepgramSTT.__init__` does not even accept the `on_speech_started`
callback that `RealtimeGateway.start` passes — although the gateway's
`_on_speech_started` handler exists and would invoke barge-in in exactly
the claimed situation (`SPEAKING`, 20 chunks sent). -/
theorem c4_speech_started_not_published :
    handle_message .speechStarted = [] ∧
    (on_speech_started
      { state := .speaking, cancelled := false, current_turn_id := 1,
        audio_sent_count := 20, consecutive_speech_frames := 0,
        audio_playing_until := 0, sent := [] } 0).2 = true := by
  exact ⟨rfl, by decide⟩

/-! ### C10: no empty-text event from a Results message -/

/-- C10: a `Results` message whose (stripped) transcript is empty publishes
no event, whatever its `is_final`/`speech_final` flags; and any published
event with empty text comes from the `UtteranceEnd` path and carries
`is_final = speech_final = true`. -/
theorem c10_no_empty_results_event :
    (∀ (alternatives : List (List Char)) (is_final speech_final : Bool),
      pyStrip (alternatives.headD []) = [] →
      handle_message (.results alternatives is_final speech_final) = []) ∧
    (∀ (m : DeepgramMessage) (e : TranscriptEvent),
      e ∈ handle_message m → e.text = [] →
      m = .utteranceEnd ∧ e.is_final = true ∧ e.speech_final = true) := by
  constructor
  · intro alternatives is_final speech_final h
    cases alternatives with
    | nil => rfl
    | cons alt rest =>
      simp only [List.headD_cons] at h
      simp [handle_message, h]
  · intro m e hmem htext
    cases m with
    | results alternatives is_final speech_final =>
      cases alternatives with
      | nil => cases hmem
      | cons alt rest =>
        simp only [handle_message] at hmem
        by_cases h : pyStrip alt ≠ []
        · simp only [if_pos h, List.mem_singleton] at hmem
          subst hmem
          exact absurd htext h
        · simp only [if_neg h] at hmem
          cases hmem
    | utteranceEnd =>
      rcases List.mem_singleton.mp hmem with rfl
      exact ⟨rfl, rfl, rfl⟩
    | speechStarted => cases hmem
    | metadata => cases hmem
    | errorMsg => cases hmem

/-- C10 witness: a Results message whose transcript is all whitespace
publishes nothing, and the UtteranceEnd event is the empty-text final. -/
theorem c10_no_empty_results_event_witness :
    handle_message (.results [[' ', ' ']] true true) = [] ∧
    ((DeepgramMessage.utteranceEnd = .utteranceEnd) ∧
      TranscriptEvent.is_final ⟨[], true, true⟩ = true ∧
      TranscriptEvent.speech_final ⟨[], true, true⟩ = true) :=
  ⟨c10_no_empty_results_event.1 [[' ', ' ']] true true (by decide),
   c10_no_empty_results_event.2 .utteranceEnd ⟨[], true, true⟩
     (by decide) rfl⟩

/-! ## Turn processing and the conversation buffers (C5) -/

/-- Outcome of `llm.generate_streaming` for one turn: either plain streamed
text, or a tool-call request, in which case `_handle_tool_call` speaks a
fetching phrase and a second generation produces the spoken response. -/
inductive LlmTurnResult where
  | plain (response : List Char)
  | toolCall (fetching_phrase : List Char) (tool_response : List Char)
deriving DecidableEq, Repr

/-- What one `_process_turn` execution appends to the LLM short buffer
(`llm.add_turn`) and to `full_conversation`, together with whether the turn
ended cancelled and whether it completed. -/
structure TurnTrace where
  short_buffer_adds : List (String × List Char)
  full_conversation_adds : List (String × List Char)
  cancelled : Bool
  completed : Bool
deriving DecidableEq, Repr

/-- `_process_turn` (lines 400-513) together with `_handle_tool_call`
(lines 515-591) and the buffer updates inside `generate_streaming` /
`generate_with_tool_result`, abstracted over where a barge-in (if any)
lands.  The four Booleans mark a barge-in arriving during: the initial LLM
stream, the spoken fetching phrase, the tool execution, and the
post-tool LLM stream (the last three apply only on the tool-call path).

Faithful structure per path:
* user text is always appended to both buffers first;
* a cancelled initial stream ends the turn with nothing else appended
  (`generate_streaming` skips `add_turn` when its cancel flag is set, and
  `_process_turn` returns at the turn-id/flag check);
* on the tool path the fetching phrase is appended to `full_conversation`
  unconditionally once spoken (line 565), before the cancellation check
  after tool execution (line 578);
* the streamed agent response reaches the short buffer only at a
  non-cancelled stream end, and reaches `full_conversation` (stripped)
  only at the final non-cancelled check (lines 499-506).

The model collapses the join of streamed sentences with the full response
text; the claims concern when the appends happen, not their whitespace. -/
def process_turn_conversation (user_text : List Char)
    (result : LlmTurnResult)
    (cancel_in_stream cancel_in_fetch_phrase cancel_in_tool
      cancel_in_tool_stream : Bool) : TurnTrace :=
  let user_adds : List (String × List Char) := [("user", user_text)]
  match result with
  | .plain response =>
    if cancel_in_stream then
      { short_buffer_adds := user_adds
        full_conversation_adds := user_adds
        cancelled := true
        completed := false }
    else
      { short_buffer_adds := user_adds ++
          (if response ≠ [] then [("assistant", response)] else [])
        full_conversation_adds := user_adds ++
          (if pyStrip response ≠ [] then [("assistant", pyStrip response)]
           else [])
        cancelled := false
        completed := true }
  | .toolCall fetching_phrase tool_response =>
    if cancel_in_stream then
      { short_buffer_adds := user_adds
        full_conversation_adds := user_adds
        cancelled := true
        completed := false }
    else
      let fc_after_phrase := user_adds ++ [("assistant", fetching_phrase)]
      if cancel_in_fetch_phrase || cancel_in_tool || cancel_in_tool_stream
      then
        { short_buffer_adds := user_adds
          full_conversation_adds := fc_after_phrase
          cancelled := true
          completed := false }
      else
        { short_buffer_adds := user_adds ++
            (if tool_response ≠ [] then [("assistant", tool_response)]
             else [])
          full_conversation_adds := fc_after_phrase ++
            (if pyStrip tool_response ≠ []
             then [("assistant", pyStrip tool_response)] else [])
          cancelled := false
          completed := true }

/-! ### C5: cancelled turns and the transcripts -/

/-- C5 counterexample: a turn whose tool call is interrupted by barge-in
during tool execution ends cancelled, yet the fetching phrase — agent text
produced during that turn — is in the full conversation. -/
theorem c5_cancelled_turn_counterexample :
    (process_turn_conversation "Gibt es aktuelle Nachrichten?".toList
        (.toolCall "Einen Moment bitte.".toList
          "Hier sind die Nachrichten.".toList)
        false false true false).cancelled = true ∧
    ("assistant", "Einen Moment bitte.".toList) ∈
      (process_turn_conversation "Gibt es aktuelle Nachrichten?".toList
        (.toolCall "Einen Moment bitte.".toList
          "Hier sind die Nachrichten.".toList)
        false false true false).full_conversation_adds := by
  exact ⟨rfl, by decide⟩

/-- C5 (amended): for every cancelled turn, no agent text reaches the LLM
short buffer, and the only agent text that can reach the full conversation
is the tool-call fetching phrase, which is appended unconditionally once
spoken; the streamed agent response is appended (to either buffer) only
when the turn completes non-cancelled. -/
theorem c5_cancelled_turn_amended :
    ∀ (user_text : List Char) (result : LlmTurnResult)
      (c₁ c₂ c₃ c₄ : Bool),
      ((process_turn_conversation user_text result c₁ c₂ c₃ c₄).cancelled =
          true →
        (∀ x ∈ (process_turn_conversation user_text result c₁ c₂ c₃
            c₄).short_buffer_adds, x.1 ≠ "assistant") ∧
        (∀ x ∈ (process_turn_conversation user_text result c₁ c₂ c₃
            c₄).full_conversation_adds, x.1 = "assistant" →
          ∃ tool_response, result = .toolCall x.2 tool_response)) ∧
      ((process_turn_conversation user_text result c₁ c₂ c₃ c₄).cancelled =
          false →
        (process_turn_conversation user_text result c₁ c₂ c₃ c₄).completed =
          true) := by
  intro user_text result c₁ c₂ c₃ c₄
  cases result with
  | plain response =>
    cases c₁ with
    | true =>
      refine ⟨fun _ => ⟨?_, ?_⟩,
        fun h => absurd h (by simp [process_turn_conversation])⟩
      · intro x hx
        have hxe : x = ("user", user_text) := by
          simpa [process_turn_conversation] using hx
        subst hxe
        simp
      · intro x hx hrole
        have hxe : x = ("user", user_text) := by
          simpa [process_turn_conversation] using hx
        subst hxe
        exact absurd hrole (by simp)
    | false =>
      refine ⟨fun h => absurd h (by simp [process_turn_conversation]),
        fun _ => by simp [process_turn_conversation]⟩
  | toolCall fetching_phrase tool_response =>
    cases c₁ with
    | true =>
      refine ⟨fun _ => ⟨?_, ?_⟩,
        fun h => absurd h (by simp [process_turn_conversation])⟩
      · intro x hx
        have hxe : x = ("user", user_text) := by
          simpa [process_turn_conversation] using hx
        subst hxe
        simp
      · intro x hx hrole
        have hxe : x = ("user", user_text) := by
          simpa [process_turn_conversation] using hx
        subst hxe
        exact absurd hrole (by simp)
    | false =>
      by_cases hc : (c₂ || c₃ || c₄) = true
      · refine ⟨fun _ => ⟨?_, ?_⟩,
          fun h => absurd h (by simp [process_turn_conversation, hc])⟩
        · intro x hx
          have hxe : x = ("user", user_text) := by
            simpa [process_turn_conversation, hc] using hx
          subst hxe
          simp
        · intro x hx hrole
          have hxe : x = ("user", user_text) ∨
              x = ("assistant", fetching_phrase) := by
            simpa [process_turn_conversation, hc] using hx
          rcases hxe with rfl | rfl
          · exact absurd hrole (by simp)
          · exact ⟨tool_response, rfl⟩
      · rw [Bool.not_eq_true] at hc
        refine ⟨fun h => absurd h (by simp [process_turn_conversation, hc]),
          fun _ => by simp [process_turn_conversation, hc]⟩

/-! ## Transcript accumulation and end-of-turn (C6) -/

/-- Python `str.lower()` restricted to the ASCII letters and the German
umlauts appearing in the texts handled here; other characters are
unchanged. -/
def pyLower (l : List Char) : List Char :=
  l.map fun c =>
    if 'A' ≤ c ∧ c ≤ 'Z' then Char.ofNat (c.toNat + 32)
    else if c = 'Ä' then 'ä'
    else if c = 'Ö' then 'ö'
    else if c = 'Ü' then 'ü'
    else c

/-- Python `str.split()` with no arguments: split on runs of whitespace,
producing no empty words. -/
def pySplitAux : List Char → List Char → List (List Char)
  | [], acc => if acc = [] then [] else [acc.reverse]
  | c :: rest, acc =>
    if isPySpace c then
      if acc = [] then pySplitAux rest []
      else acc.reverse :: pySplitAux rest []
    else pySplitAux rest (c :: acc)

/-- Python `str.split()` over `List Char`. -/
def pySplit (l : List Char) : List (List Char) := pySplitAux l []

/-- Python `" ".join(words)`. -/
def joinWords (words : List (List Char)) : List Char :=
  List.intercalate [' '] words

/-- The 3-2-1 word-overlap loop of `_remove_overlap`: try overlap lengths
from `min 3 (len new_words)` down to 1; at the first hit return the
remaining new words rejoined with single spaces (empty when the whole new
text was a duplicate). -/
def overlapLoop (existing_words new_words new_words_lower : List (List Char))
    (new_text : List Char) : Nat → List Char
  | 0 => new_text
  | overlap_len + 1 =>
    let k := overlap_len + 1
    if k ≤ existing_words.length ∧
        existing_words.drop (existing_words.length - k) =
          new_words_lower.take k then
      joinWords (new_words.drop k)
    else
      overlapLoop existing_words new_words new_words_lower new_text
        overlap_len

/-- `_remove_overlap` (lines 238-277): case-insensitively strip a 1-3 word
overlap between the tail of the accumulated text and the head of the new
final transcript. -/
def remove_overlap (existing new_text : List Char) : List Char :=
  if existing = [] ∨ new_text = [] then new_text
  else
    let existing_words := pySplit (pyLower existing)
    let new_words := pySplit new_text
    let new_words_lower := new_words.map pyLower
    if existing_words = [] ∨ new_words = [] then new_text
    else
      overlapLoop existing_words new_words new_words_lower new_text
        (min 3 new_words.length)

/-- The transcript-accumulation step of `_on_transcript` (lines 356-375):
a non-empty final transcript is appended to the accumulating utterance
after overlap removal (replacing it when the utterance was empty); partials
and empty texts leave the utterance unchanged. -/
def accumulate_transcript (utterance : List Char) (ev : TranscriptEvent) :
    List Char :=
  if ev.text ≠ [] ∧ ev.is_final = true then
    if utterance ≠ [] then
      let new_text := remove_overlap utterance ev.text
      if new_text ≠ [] then utterance ++ ' ' :: new_text else utterance
    else ev.text
  else utterance

/-- `FILLER_WORDS` (line 385). -/
def FILLER_WORDS : List (List Char) :=
  ["und", "aber", "also", "naja", "hmm", "ähm", "öhm", "na", "so",
    "äh"].map String.toList

/-- Python `rstrip('.,!?')`. -/
def rstripPunct (l : List Char) : List Char :=
  (l.reverse.dropWhile fun c =>
    c == '.' || c == ',' || c == '!' || c == '?').reverse

/-- `utterance_clean` (line 387): strip, lowercase, strip trailing
punctuation. -/
def utterance_clean (utterance : List Char) : List Char :=
  rstripPunct (pyLower (pyStrip utterance))

/-- `_on_transcript` (lines 352-398) for an event reaching the `LISTENING`
block (i.e. when the barge-in backup path at lines 343-350 was not taken):
accumulate the text, then on `speech_final` process exactly one turn —
which consumes the utterance — unless the utterance is empty or a single
filler word, in which case keep waiting with the utterance intact.
Returns the new accumulated utterance and whether a turn was processed. -/
def on_transcript_listening (utterance : List Char) (ev : TranscriptEvent) :
    List Char × Bool :=
  let utterance' := accumulate_transcript utterance ev
  if ev.speech_final = true then
    if utterance' ≠ [] then
      if utterance_clean utterance' ∈ FILLER_WORDS then (utterance', false)
      else ([], true)
    else (utterance', false)
  else (utterance', false)

/-! ### C6: end-of-turn on speech_final -/

/-- C6: in `LISTENING`, a `speech_final` event processes exactly one turn
iff the (freshly accumulated) utterance is non-empty and its trimmed,
lowercased, punctuation-stripped form is not a single filler token — even
when the triggering event's own text is empty — and when no turn is
processed the accumulated utterance is kept for the next event. -/
theorem c6_speech_final_end_of_turn :
    ∀ (utterance : List Char) (ev : TranscriptEvent),
      ((on_transcript_listening utterance ev).2 = true ↔
        (ev.speech_final = true ∧
         accumulate_transcript utterance ev ≠ [] ∧
         utterance_clean (accumulate_transcript utterance ev) ∉
           FILLER_WORDS)) ∧
      ((on_transcript_listening utterance ev).2 = false →
        (on_transcript_listening utterance ev).1 =
          accumulate_transcript utterance ev) := by
  intro utterance ev
  unfold on_transcript_listening
  by_cases hsf : ev.speech_final = true
  · by_cases hne : accumulate_transcript utterance ev ≠ []
    · by_cases hf : utterance_clean (accumulate_transcript utterance ev) ∈
          FILLER_WORDS
      · simp [hsf, hne, hf]
      · simp [hsf, hne, hf]
    · simp [hsf, hne]
  · simp [hsf]

/-- C6 witness: after "Mein Garten ist voll" has accumulated, a second
`speech_final` event with empty text triggers the turn; a bare filler
"Und." with `speech_final` does not, and the utterance is kept. -/
theorem c6_speech_final_end_of_turn_witness :
    ((on_transcript_listening "Mein Garten ist voll".toList
        ⟨[], true, true⟩).2 = true) ∧
    ((on_transcript_listening [] ⟨"Und.".toList, true, true⟩).1 =
      accumulate_transcript [] ⟨"Und.".toList, true, true⟩) :=
  ⟨((c6_speech_final_end_of_turn "Mein Garten ist voll".toList
      ⟨[], true, true⟩).1).mpr ⟨rfl, by decide, by decide⟩,
   (c6_speech_final_end_of_turn [] ⟨"Und.".toList, true, true⟩).2
     (by decide)⟩

/-- C5 witness: a cancelled tool turn adds no assistant entry to the short
buffer, and a clean plain turn completes. -/
theorem c5_cancelled_turn_amended_witness :
    ("user", "Hallo.".toList).1 ≠ "assistant" ∧
    (process_turn_conversation "Hallo.".toList (.plain "Gut.".toList)
      false false false false).completed = true :=
  ⟨((c5_cancelled_turn_amended "Hallo.".toList
      (.toolCall "Moment.".toList "Antwort.".toList)
      false false true false).1 (by decide)).1
      ("user", "Hallo.".toList) (by decide),
   (c5_cancelled_turn_amended "Hallo.".toList (.plain "Gut.".toList)
      false false false false).2 (by decide)⟩

/-! ## LLM sentence streaming (`app/services/openai_llm.py`, C8) -/

/-- A sentence terminator: `.`, `!` or `?`. -/
def is_terminator (c : Char) : Bool := c == '.' || c == '!' || c == '?'

/-- Models `re.findall(r'([^.!?]*[.!?])(?:\s|$)', text)` and returns the
group-1 captures in order.  The regex engine scans left to right: at each
position the greedy `[^.!?]*` run (held in `acc`) must be followed by a
terminator and then a whitespace character or the end of the string; when
the character after the terminator is neither, no start position at or
before the terminator can match, so the scan resumes just after the
terminator; after a successful match the scan resumes after the consumed
whitespace. -/
def findall_sentences (acc : List Char) : List Char → List (List Char)
  | [] => []
  | [c] => if is_terminator c then [acc ++ [c]] else []
  | c :: d :: rest' =>
    if is_terminator c then
      if isPySpace d then (acc ++ [c]) :: findall_sentences [] rest'
      else findall_sentences [] (d :: rest')
    else findall_sentences (acc ++ [c]) (d :: rest')

/-- Modelled from the spec: the sentence rule — "a run of non-terminator
characters followed by `.`, `!`, or `?` and then whitespace or
end-of-stream" — applied left to right to a whole text, returning the
complete sentences in order together with the remaining text after them
(the remainder emitted at stream close).  The rule is word-for-word the
regex of `_extract_sentences`, so the scan has the same shape. -/
def rule_sentences_scan (acc : List Char) :
    List Char → List (List Char) × List Char
  | [] => ([], acc)
  | [c] =>
    if is_terminator c then ([acc ++ [c]], []) else ([], acc ++ [c])
  | c :: d :: rest' =>
    if is_terminator c then
      if isPySpace d then
        let p := rule_sentences_scan [] rest'
        ((acc ++ [c]) :: p.1, p.2)
      else rule_sentences_scan [] (d :: rest')
    else rule_sentences_scan (acc ++ [c]) (d :: rest')

/-- First index at which `needle` occurs as a contiguous sublist, if any. -/
def sub_index (needle : List Char) : List Char → Option Nat
  | [] => if needle = [] then some 0 else none
  | c :: rest =>
    if needle.isPrefixOf (c :: rest) then some 0
    else (sub_index needle rest).map (· + 1)

/-- Python `text.find(needle, start)` returning `none` for `-1`. -/
def py_find (text needle : List Char) (start : Nat) : Option Nat :=
  (sub_index needle (text.drop start)).map (start + ·)

/-- The `last_end` loop of `_extract_sentences` (lines 573-577): walk the
complete sentences, advancing `last_end` past each one found in the
original text. -/
def last_end_loop (text : List Char) : Nat → List (List Char) → Nat
  | last_end, [] => last_end
  | last_end, s :: ss =>
    match py_find text s last_end with
    | some idx => last_end_loop text (idx + s.length) ss
    | none => last_end_loop text last_end ss

/-- The `last_end` loop re-expressed on the not-yet-consumed suffix of the
text; used only in proofs (bridged to `last_end_loop` below). -/
def consume_loop (D : List Char) : List (List Char) → Nat
  | [] => 0
  | s :: ss =>
    match sub_index s D with
    | some k => (k + s.length) + consume_loop (D.drop (k + s.length)) ss
    | none => consume_loop D ss

/-- `_extract_sentences` (lines 565-583): the complete sentences are the
stripped non-empty regex captures; when there is at least one, the
incomplete remainder is the stripped text after `last_end`, otherwise the
whole text. -/
def extract_sentences (text : List Char) : List (List Char) × List Char :=
  let complete := ((findall_sentences [] text).map pyStrip).filter (· ≠ [])
  if complete = [] then (complete, text)
  else (complete, pyStrip (text.drop (last_end_loop text 0 complete)))

/-- The content-streaming loop of `generate_streaming` (lines 381-429):
append each streamed token to the sentence buffer, emit the complete
sentences of `_extract_sentences` and keep its incomplete remainder; at
stream close emit the stripped buffer if non-empty.  Returns the arguments
passed to `on_sentence`, in order. -/
def generate_streaming_sentences (buf : List Char) :
    List (List Char) → List (List Char)
  | [] => if pyStrip buf ≠ [] then [pyStrip buf] else []
  | tok :: toks =>
    let p := extract_sentences (buf ++ tok)
    p.1 ++ generate_streaming_sentences p.2 toks

/-- The full `on_sentence` trace of one uncancelled streamed response. -/
def stream_sentences (tokens : List (List Char)) : List (List Char) :=
  generate_streaming_sentences [] tokens

/-- Modelled from the spec: the expected `on_sentence` trace for a streamed
text under the sentence rule — one invocation per complete sentence in
order, taken modulo surrounding whitespace, plus the non-empty stripped
remainder at stream close. -/
def rule_emitted_stripped (text : List Char) : List (List Char) :=
  let p := rule_sentences_scan [] text
  p.1.map pyStrip ++ (if pyStrip p.2 ≠ [] then [pyStrip p.2] else [])

/-- Every `.`, `!` or `?` in the text is immediately followed by a
whitespace character or ends the text. -/
def clean_text : List Char → Bool
  | [] => true
  | [_] => true
  | c :: d :: rest' =>
    if is_terminator c then isPySpace d && clean_text (d :: rest')
    else clean_text (d :: rest')

/-! ### C8 counterexample -/

/-- C8 counterexample.  First input: the tokens `"a."`, `"b?"` make the
code emit `"a."` — the `$` of the sentence regex treats the end of the
*buffer* as end-of-stream, so a terminator at a token boundary ends a
sentence even though the next streamed character is not whitespace — while
under the rule the streamed text `"a.b?"` contains the single sentence
`"b?"`.  Second input: the tokens `"a. x "`, `"y."` make the code emit
`"xy."`, gluing two words together, because the incomplete remainder
`" x "` is stripped of its *trailing* whitespace before the next token is
appended; the rule yields `"x y."`. -/
theorem c8_sentence_stream_counterexample :
    stream_sentences ["a.".toList, "b?".toList] ≠
      rule_emitted_stripped (["a.".toList, "b?".toList] : List (List Char)).flatten ∧
    stream_sentences ["a. x ".toList, "y.".toList] ≠
      rule_emitted_stripped (["a. x ".toList, "y.".toList] : List (List Char)).flatten := by
  constructor
  · decide
  · decide

/-! ### C8 proof infrastructure: whitespace and strip lemmas -/

theorem term_not_space {c : Char} (h : is_terminator c = true) :
    isPySpace c = false := by
  simp only [is_terminator, Bool.or_eq_true, beq_iff_eq] at h
  rcases h with (h | h) | h <;> subst h <;> rfl

theorem space_not_term {c : Char} (h : isPySpace c = true) :
    is_terminator c = false := by
  simp only [isPySpace, Bool.or_eq_true, beq_iff_eq] at h
  rcases h with ((((h | h) | h) | h) | h) | h <;> subst h <;> rfl

theorem dropWhile_ws_append {w : List Char}
    (hw : ∀ c ∈ w, isPySpace c = true) (l : List Char) :
    (w ++ l).dropWhile isPySpace = l.dropWhile isPySpace := by
  induction w with
  | nil => rfl
  | cons c w ih =>
    simp only [List.cons_append, List.dropWhile_cons,
      hw c (List.mem_cons_self c w), if_true]
    exact ih fun d hd => hw d (List.mem_cons_of_mem c hd)

theorem dropWhile_append_last_not {xs : List Char} {t : Char}
    (ht : isPySpace t = false) :
    (xs ++ [t]).dropWhile isPySpace = xs.dropWhile isPySpace ++ [t] := by
  induction xs with
  | nil => simp [List.dropWhile_cons, ht]
  | cons c xs ih =>
    by_cases hc : isPySpace c = true
    · simp only [List.cons_append, List.dropWhile_cons, hc, if_true]
      exact ih
    · rw [Bool.not_eq_true] at hc
      simp [List.dropWhile_cons, hc]

theorem no_trailing_space_append {a b : List Char} :
    no_trailing_space (a ++ b) =
      if b = [] then no_trailing_space a else no_trailing_space b := by
  by_cases hb : b = []
  · simp [hb]
  · simp only [hb, if_false, no_trailing_space,
      List.getLast?_append_of_ne_nil _ hb]

theorem stripRight_of_no_trailing {l : List Char}
    (h : no_trailing_space l = true) : stripRight l = l := by
  unfold stripRight
  unfold no_trailing_space at h
  rw [← List.head?_reverse] at h
  cases hrev : l.reverse with
  | nil =>
    have : l = [] := by simpa using congrArg List.reverse hrev
    simp [this]
  | cons c t =>
    rw [hrev] at h
    simp only [List.head?_cons] at h
    have hc : isPySpace c = false := by simpa using h
    rw [List.dropWhile_cons, if_neg (by simp [hc])]
    simpa using (congrArg List.reverse hrev).symm

theorem no_trailing_space_stripRight (l : List Char) :
    no_trailing_space (stripRight l) = true := by
  unfold stripRight no_trailing_space
  rw [← List.head?_reverse, List.reverse_reverse]
  cases hh : (l.reverse.dropWhile isPySpace).head? with
  | none => rfl
  | some c =>
    have := List.head?_dropWhile_not isPySpace l.reverse
    rw [hh] at this
    simp only [Option.map_some] at this ⊢
    simp [this]

theorem no_trailing_space_pyStrip (l : List Char) :
    no_trailing_space (pyStrip l) = true :=
  no_trailing_space_stripRight (stripLeft l)

theorem pyStrip_ws_append {w : List Char}
    (hw : ∀ c ∈ w, isPySpace c = true) (l : List Char) :
    pyStrip (w ++ l) = pyStrip l := by
  unfold pyStrip stripLeft
  rw [dropWhile_ws_append hw]

theorem pyStrip_append_last_not {xs : List Char} {t : Char}
    (ht : isPySpace t = false) :
    pyStrip (xs ++ [t]) = xs.dropWhile isPySpace ++ [t] := by
  unfold pyStrip stripLeft
  rw [dropWhile_append_last_not ht]
  exact stripRight_of_no_trailing (by
    rw [no_trailing_space_append]
    simp [no_trailing_space, ht])

theorem pyStrip_eq_dropWhile_of_no_trailing {l : List Char}
    (h : no_trailing_space l = true) :
    pyStrip l = l.dropWhile isPySpace := by
  unfold pyStrip stripLeft
  apply stripRight_of_no_trailing
  by_cases hd : l.dropWhile isPySpace = []
  · simp [hd, no_trailing_space]
  · have hsuf : l.dropWhile isPySpace <:+ l := List.dropWhile_suffix isPySpace
    rcases hsuf with ⟨p, hp⟩
    rw [← hp] at h
    rwa [no_trailing_space_append, if_neg hd] at h

theorem head_dropWhile_not_space {l : List Char} {h : Char} {t : List Char}
    (he : l.dropWhile isPySpace = h :: t) : isPySpace h = false := by
  have := List.head?_dropWhile_not isPySpace l
  rw [he] at this
  simpa using this

/-! ### C8 proof infrastructure: scanner unfolding lemmas -/

theorem scan_nil (acc : List Char) :
    rule_sentences_scan acc [] = ([], acc) := rfl

theorem scan_term_single {c : Char} (hc : is_terminator c = true)
    (acc : List Char) : rule_sentences_scan acc [c] = ([acc ++ [c]], []) := by
  simp [rule_sentences_scan, hc]

theorem scan_nonterm_single {c : Char} (hc : is_terminator c = false)
    (acc : List Char) : rule_sentences_scan acc [c] = ([], acc ++ [c]) := by
  simp [rule_sentences_scan, hc]

theorem scan_term_ws {c d : Char} (hc : is_terminator c = true)
    (hd : isPySpace d = true) (acc rest' : List Char) :
    rule_sentences_scan acc (c :: d :: rest') =
      ((acc ++ [c]) :: (rule_sentences_scan [] rest').1,
        (rule_sentences_scan [] rest').2) := by
  simp [rule_sentences_scan, hc, hd]

theorem scan_term_nows {c d : Char} (hc : is_terminator c = true)
    (hd : isPySpace d = false) (acc rest' : List Char) :
    rule_sentences_scan acc (c :: d :: rest') =
      rule_sentences_scan [] (d :: rest') := by
  simp [rule_sentences_scan, hc, hd]

theorem scan_cons_nonterm {c : Char} (hc : is_terminator c = false)
    (acc X : List Char) :
    rule_sentences_scan acc (c :: X) =
      rule_sentences_scan (acc ++ [c]) X := by
  cases X with
  | nil => simp [rule_sentences_scan, hc]
  | cons d X' => simp [rule_sentences_scan, hc]

theorem scan_termfree_append {p : List Char}
    (hp : ∀ c ∈ p, is_terminator c = false) :
    ∀ (acc X : List Char),
      rule_sentences_scan acc (p ++ X) =
        rule_sentences_scan (acc ++ p) X := by
  induction p with
  | nil => intro acc X; simp
  | cons c p ih =>
    intro acc X
    rw [List.cons_append, scan_cons_nonterm (hp c (List.mem_cons_self c p)),
      ih (fun d hd => hp d (List.mem_cons_of_mem c hd))]
    simp

theorem findall_eq_scan : ∀ (acc l : List Char),
    findall_sentences acc l = (rule_sentences_scan acc l).1
  | _, [] => rfl
  | acc, [c] => by
    by_cases h : is_terminator c = true <;>
      simp [findall_sentences, rule_sentences_scan, h]
  | acc, c :: d :: rest' => by
    by_cases h : is_terminator c = true
    · by_cases hd : isPySpace d = true
      · simp [findall_sentences, scan_term_ws h hd, h, hd,
          findall_eq_scan [] rest']
      · rw [Bool.not_eq_true] at hd
        simp [findall_sentences, scan_term_nows h hd, h, hd,
          findall_eq_scan [] (d :: rest')]
    · rw [Bool.not_eq_true] at h
      simp [findall_sentences, scan_cons_nonterm h, h,
        findall_eq_scan (acc ++ [c]) (d :: rest')]

theorem scan_captures_shape : ∀ (l acc s : List Char),
    s ∈ (rule_sentences_scan acc l).1 →
    ∃ xs t, s = xs ++ [t] ∧ is_terminator t = true
  | [], acc, s => by simp [rule_sentences_scan]
  | [c], acc, s => by
    by_cases h : is_terminator c = true
    · rw [scan_term_single h]
      intro hmem
      exact ⟨acc, c, List.mem_singleton.mp hmem, h⟩
    · rw [Bool.not_eq_true] at h
      rw [scan_nonterm_single h]
      simp
  | c :: d :: rest', acc, s => by
    by_cases h : is_terminator c = true
    · by_cases hd : isPySpace d = true
      · rw [scan_term_ws h hd]
        intro hmem
        rcases List.mem_cons.mp hmem with he | hmem'
        · exact ⟨acc, c, he, h⟩
        · exact scan_captures_shape rest' [] s hmem'
      · rw [Bool.not_eq_true] at hd
        rw [scan_term_nows h hd]
        exact scan_captures_shape (d :: rest') [] s
    · rw [Bool.not_eq_true] at h
      rw [scan_cons_nonterm h]
      exact scan_captures_shape (d :: rest') (acc ++ [c]) s

theorem cap_pyStrip_shape {l acc s : List Char}
    (hs : s ∈ (rule_sentences_scan acc l).1) :
    ∃ h tl, pyStrip s = h :: tl ∧ isPySpace h = false := by
  obtain ⟨xs, t, rfl, ht⟩ := scan_captures_shape l acc s hs
  rw [pyStrip_append_last_not (term_not_space ht)]
  cases he : xs.dropWhile isPySpace with
  | nil => exact ⟨t, [], by simp [he], term_not_space ht⟩
  | cons h tl =>
    exact ⟨h, tl ++ [t], by simp [he], head_dropWhile_not_space he⟩

theorem cap_pyStrip_ne {l acc s : List Char}
    (hs : s ∈ (rule_sentences_scan acc l).1) : pyStrip s ≠ [] := by
  obtain ⟨h, tl, he, _⟩ := cap_pyStrip_shape hs
  simp [he]

/-! ### C8 proof infrastructure: clean texts -/

theorem clean_tail {c : Char} {X : List Char}
    (h : clean_text (c :: X) = true) : clean_text X = true := by
  cases X with
  | nil => rfl
  | cons d X' =>
    by_cases hc : is_terminator c = true
    · simp only [clean_text, hc, if_true, Bool.and_eq_true] at h
      exact h.2
    · rw [Bool.not_eq_true] at hc
      simpa [clean_text, hc] using h

theorem clean_term_ws {c d : Char} {X : List Char}
    (h : clean_text (c :: d :: X) = true) (hc : is_terminator c = true) :
    isPySpace d = true := by
  simp only [clean_text, hc, if_true, Bool.and_eq_true] at h
  exact h.1

theorem clean_append_left : ∀ {X : List Char} (Y : List Char),
    clean_text (X ++ Y) = true → clean_text X = true
  | [], _ => fun _ => rfl
  | [_], _ => fun _ => rfl
  | c :: d :: rest', Y => fun h => by
    have htail : clean_text ((d :: rest') ++ Y) = true :=
      clean_tail (X := d :: (rest' ++ Y)) h
    have ih := clean_append_left (X := d :: rest') Y htail
    by_cases hc : is_terminator c = true
    · have hd : isPySpace d = true := clean_term_ws h hc
      simp [clean_text, hc, hd, ih]
    · rw [Bool.not_eq_true] at hc
      simp [clean_text, hc, ih]

theorem clean_append_right : ∀ {X : List Char} (Y : List Char),
    clean_text (X ++ Y) = true → clean_text Y = true
  | [], _ => fun h => h
  | c :: X', Y => fun h =>
    clean_append_right (X := X') Y (clean_tail (c := c) h)

/-! ### C8 proof infrastructure: accumulator normalization -/

/-- Prepend `acc` to the first produced component of a scan result: onto the
first sentence when there is one, else onto the remainder. -/
def prependFirst (acc : List Char) :
    List (List Char) × List Char → List (List Char) × List Char
  | ([], r) => ([], acc ++ r)
  | (s :: ss, r) => ((acc ++ s) :: ss, r)

theorem prependFirst_prependFirst (a b : List Char)
    (p : List (List Char) × List Char) :
    prependFirst a (prependFirst b p) = prependFirst (a ++ b) p := by
  rcases p with ⟨ss, r⟩
  cases ss <;> simp [prependFirst]

theorem scan_acc_eq : ∀ (l : List Char), clean_text l = true →
    ∀ acc, rule_sentences_scan acc l =
      prependFirst acc (rule_sentences_scan [] l)
  | [], _, acc => by simp [rule_sentences_scan, prependFirst]
  | [c], _, acc => by
    by_cases hc : is_terminator c = true
    · rw [scan_term_single hc, scan_term_single hc]
      simp [prependFirst]
    · rw [Bool.not_eq_true] at hc
      rw [scan_nonterm_single hc, scan_nonterm_single hc]
      simp [prependFirst]
  | c :: d :: rest', h, acc => by
    by_cases hc : is_terminator c = true
    · have hd : isPySpace d = true := clean_term_ws h hc
      rw [scan_term_ws hc hd, scan_term_ws hc hd]
      simp [prependFirst]
    · rw [Bool.not_eq_true] at hc
      rw [scan_cons_nonterm hc, scan_cons_nonterm hc,
        scan_acc_eq (d :: rest') (clean_tail h) (acc ++ [c]),
        scan_acc_eq (d :: rest') (clean_tail h) ([] ++ [c]),
        List.nil_append, prependFirst_prependFirst]

theorem scan_no_captures : ∀ (l : List Char), clean_text l = true →
    ∀ acc, (rule_sentences_scan acc l).1 = [] →
      (rule_sentences_scan acc l).2 = acc ++ l
  | [], _, acc, _ => by simp [rule_sentences_scan]
  | [c], _, acc, h1 => by
    by_cases hc : is_terminator c = true
    · rw [scan_term_single hc] at h1
      cases h1
    · rw [Bool.not_eq_true] at hc
      rw [scan_nonterm_single hc]
  | c :: d :: rest', h, acc, h1 => by
    by_cases hc : is_terminator c = true
    · have hd : isPySpace d = true := clean_term_ws h hc
      rw [scan_term_ws hc hd] at h1
      cases h1
    · rw [Bool.not_eq_true] at hc
      rw [scan_cons_nonterm hc] at h1 ⊢
      rw [scan_no_captures (d :: rest') (clean_tail h) (acc ++ [c]) h1]
      simp

theorem scan_rem_termfree : ∀ (l acc : List Char),
    (∀ c ∈ acc, is_terminator c = false) →
    ∀ c ∈ (rule_sentences_scan acc l).2, is_terminator c = false
  | [], acc, hacc => by simpa [rule_sentences_scan] using hacc
  | [c], acc, hacc => by
    by_cases hc : is_terminator c = true
    · rw [scan_term_single hc]
      simp
    · rw [Bool.not_eq_true] at hc
      rw [scan_nonterm_single hc]
      intro x hx
      rcases List.mem_append.mp hx with hx | hx
      · exact hacc x hx
      · rw [List.mem_singleton.mp hx]
        exact hc
  | c :: d :: rest', acc, hacc => by
    by_cases hc : is_terminator c = true
    · by_cases hd : isPySpace d = true
      · rw [scan_term_ws hc hd]
        exact scan_rem_termfree rest' [] (by simp)
      · rw [Bool.not_eq_true] at hd
        rw [scan_term_nows hc hd]
        exact scan_rem_termfree (d :: rest') [] (by simp)
    · rw [Bool.not_eq_true] at hc
      rw [scan_cons_nonterm hc]
      refine scan_rem_termfree (d :: rest') (acc ++ [c]) ?_
      intro x hx
      rcases List.mem_append.mp hx with hx | hx
      · exact hacc x hx
      · rw [List.mem_singleton.mp hx]
        exact hc

theorem scan_rem_suffix : ∀ (l acc : List Char),
    ∃ p, acc ++ l = p ++ (rule_sentences_scan acc l).2
  | [], acc => ⟨[], by simp [rule_sentences_scan]⟩
  | [c], acc => by
    by_cases hc : is_terminator c = true
    · exact ⟨acc ++ [c], by rw [scan_term_single hc]; simp⟩
    · rw [Bool.not_eq_true] at hc
      exact ⟨[], by rw [scan_nonterm_single hc]; simp⟩
  | c :: d :: rest', acc => by
    by_cases hc : is_terminator c = true
    · by_cases hd : isPySpace d = true
      · obtain ⟨p', hp'⟩ := scan_rem_suffix rest' []
        rw [List.nil_append] at hp'
        refine ⟨acc ++ [c] ++ [d] ++ p', ?_⟩
        rw [scan_term_ws hc hd]
        simp only [List.append_assoc, List.cons_append, List.nil_append,
          List.singleton_append]
        rw [← hp']
      · rw [Bool.not_eq_true] at hd
        obtain ⟨p', hp'⟩ := scan_rem_suffix (d :: rest') []
        rw [List.nil_append] at hp'
        refine ⟨acc ++ [c] ++ p', ?_⟩
        rw [scan_term_nows hc hd]
        simp only [List.append_assoc, List.cons_append, List.nil_append,
          List.singleton_append]
        rw [← hp']
    · rw [Bool.not_eq_true] at hc
      obtain ⟨p', hp'⟩ := scan_rem_suffix (d :: rest') (acc ++ [c])
      refine ⟨p', ?_⟩
      rw [scan_cons_nonterm hc]
      rw [show acc ++ c :: d :: rest' = (acc ++ [c]) ++ (d :: rest') by simp]
      exact hp'

theorem scan_termfree : ∀ (l acc : List Char),
    (∀ c ∈ l, is_terminator c = false) →
    rule_sentences_scan acc l = ([], acc ++ l)
  | [], acc, _ => by simp [rule_sentences_scan]
  | [c], acc, hl => by
    rw [scan_nonterm_single (hl c (List.mem_singleton_self c))]
  | c :: d :: rest', acc, hl => by
    rw [scan_cons_nonterm (hl c (List.mem_cons_self c _))]
    rw [scan_termfree (d :: rest') (acc ++ [c])
      (fun x hx => hl x (List.mem_cons_of_mem c hx))]
    simp

/-! ### C8 proof infrastructure: substring search -/

theorem isPrefixOf_self_append (a b : List Char) :
    a.isPrefixOf (a ++ b) = true :=
  List.isPrefixOf_iff_prefix.mpr (List.prefix_append a b)

theorem sub_index_self_append (needle post : List Char) :
    sub_index needle (needle ++ post) = some 0 := by
  cases needle with
  | nil =>
    cases post with
    | nil => rfl
    | cons c rest => simp [sub_index, List.isPrefixOf]
  | cons n ns =>
    rw [List.cons_append]
    unfold sub_index
    rw [if_pos]
    rw [show n :: (ns ++ post) = (n :: ns) ++ post from rfl]
    exact isPrefixOf_self_append (n :: ns) post

theorem sub_index_cons_neg {needle : List Char} {c : Char} {rest : List Char}
    (h : needle.isPrefixOf (c :: rest) = false) :
    sub_index needle (c :: rest) = (sub_index needle rest).map (· + 1) := by
  rw [show sub_index needle (c :: rest) =
      (if needle.isPrefixOf (c :: rest) = true then some 0
       else (sub_index needle rest).map (· + 1)) from rfl]
  rw [if_neg (by simp [h])]

theorem sub_index_ws_skip {h : Char} {tl : List Char}
    (hh : isPySpace h = false) :
    ∀ (w : List Char), (∀ c ∈ w, isPySpace c = true) → ∀ D,
      sub_index (h :: tl) (w ++ D) =
        (sub_index (h :: tl) D).map (fun k => w.length + k)
  | [], _, D => by
    cases hk : sub_index (h :: tl) D <;> simp [hk]
  | c :: w', hw, D => by
    have hc : isPySpace c = true := hw c (List.mem_cons_self c w')
    have hne : (h == c) = false := by
      cases hbe : h == c
      · rfl
      · rw [beq_iff_eq] at hbe
        rw [hbe, hc] at hh
        cases hh
    rw [List.cons_append,
      sub_index_cons_neg (by simp [List.isPrefixOf, hne]),
      sub_index_ws_skip hh w'
        (fun d hd => hw d (List.mem_cons_of_mem c hd)) D,
      Option.map_map]
    cases sub_index (h :: tl) D with
    | none => rfl
    | some k =>
      simp only [Option.map_some', Function.comp_apply, Option.some.injEq,
        List.length_cons]
      omega

theorem last_end_loop_cons (text : List Char) (le : Nat) (s : List Char)
    (ss : List (List Char)) :
    last_end_loop text le (s :: ss) =
      match py_find text s le with
      | some idx => last_end_loop text (idx + s.length) ss
      | none => last_end_loop text le ss := rfl

theorem consume_loop_cons (D s : List Char) (ss : List (List Char)) :
    consume_loop D (s :: ss) =
      match sub_index s D with
      | some k => (k + s.length) + consume_loop (D.drop (k + s.length)) ss
      | none => consume_loop D ss := rfl

theorem last_end_loop_eq_consume (text : List Char) :
    ∀ (ss : List (List Char)) (le : Nat),
      last_end_loop text le ss = le + consume_loop (text.drop le) ss
  | [], le => by simp [last_end_loop, consume_loop]
  | s :: ss, le => by
    cases hk : sub_index s (text.drop le) with
    | none =>
      have hpf : py_find text s le = none := by simp [py_find, hk]
      have h1 : last_end_loop text le (s :: ss) =
          last_end_loop text le ss := by
        rw [last_end_loop_cons, hpf]
      have h2 : consume_loop (text.drop le) (s :: ss) =
          consume_loop (text.drop le) ss := by
        rw [consume_loop_cons, hk]
      rw [h1, h2]
      exact last_end_loop_eq_consume text ss le
    | some k =>
      have hpf : py_find text s le = some (le + k) := by simp [py_find, hk]
      have h1 : last_end_loop text le (s :: ss) =
          last_end_loop text (le + k + s.length) ss := by
        rw [last_end_loop_cons, hpf]
      have h2 : consume_loop (text.drop le) (s :: ss) =
          (k + s.length) +
            consume_loop ((text.drop le).drop (k + s.length)) ss := by
        rw [consume_loop_cons, hk]
      rw [h1, h2, last_end_loop_eq_consume text ss (le + k + s.length),
        List.drop_drop, Nat.add_assoc le k s.length]
      omega

/-! ### C8 proof infrastructure: locating the first capture -/

theorem strip_acc_term {acc : List Char} {c : Char}
    (hc : is_terminator c = true) :
    pyStrip (acc ++ [c]) = acc.dropWhile isPySpace ++ [c] :=
  pyStrip_append_last_not (term_not_space hc)

theorem dropWhile_cons_head (acc : List Char) (c : Char)
    (hc : isPySpace c = false) :
    ∃ h tl, acc.dropWhile isPySpace ++ [c] = h :: tl ∧
      isPySpace h = false := by
  cases he : acc.dropWhile isPySpace with
  | nil => exact ⟨c, [], by simp, hc⟩
  | cons h t => exact ⟨h, t ++ [c], by simp, head_dropWhile_not_space he⟩

theorem first_capture_sub_index {acc : List Char} {c : Char}
    (hc : is_terminator c = true) (w Z : List Char)
    (hw : ∀ x ∈ w, isPySpace x = true) :
    sub_index (pyStrip (acc ++ [c])) (w ++ acc ++ (c :: Z)) =
      some (w.length + (acc.takeWhile isPySpace).length) := by
  rw [strip_acc_term hc]
  obtain ⟨h, tl, hn, hh⟩ := dropWhile_cons_head acc c (term_not_space hc)
  have hws : ∀ x ∈ w ++ acc.takeWhile isPySpace, isPySpace x = true := by
    intro x hx
    rcases List.mem_append.mp hx with hx | hx
    · exact hw x hx
    · exact List.mem_takeWhile_imp hx
  have htext : w ++ acc ++ (c :: Z) =
      (w ++ acc.takeWhile isPySpace) ++
        ((acc.dropWhile isPySpace ++ [c]) ++ Z) := by
    simp only [List.append_assoc, List.singleton_append]
    rw [← List.append_assoc (List.takeWhile isPySpace acc)
      (List.dropWhile isPySpace acc) (c :: Z),
      List.takeWhile_append_dropWhile]
  rw [htext, hn, sub_index_ws_skip hh _ hws, sub_index_self_append]
  simp

theorem consume_loop_cons_some {D s : List Char} {ss : List (List Char)}
    {k : Nat} (h : sub_index s D = some k) :
    consume_loop D (s :: ss) =
      (k + s.length) + consume_loop (D.drop (k + s.length)) ss := by
  rw [consume_loop_cons, h]

theorem consume_first {acc : List Char} {c : Char}
    (hc : is_terminator c = true) (w Z : List Char)
    (hw : ∀ x ∈ w, isPySpace x = true) (ss : List (List Char)) :
    consume_loop (w ++ acc ++ (c :: Z)) (pyStrip (acc ++ [c]) :: ss) =
      (w.length + acc.length + 1) + consume_loop Z ss := by
  rw [consume_loop_cons_some (first_capture_sub_index hc w Z hw)]
  have hlen : w.length + (acc.takeWhile isPySpace).length +
      (pyStrip (acc ++ [c])).length = w.length + acc.length + 1 := by
    rw [strip_acc_term hc]
    have hacc := congrArg List.length
      (List.takeWhile_append_dropWhile isPySpace acc)
    simp only [List.length_append, List.length_cons,
      List.length_nil] at hacc ⊢
    omega
  rw [hlen]
  have hdrop : (w ++ acc ++ (c :: Z)).drop (w.length + acc.length + 1) = Z := by
    rw [show w ++ acc ++ (c :: Z) = (w ++ acc ++ [c]) ++ Z by simp]
    rw [show w.length + acc.length + 1 = (w ++ acc ++ [c]).length by
      simp only [List.length_append, List.length_cons, List.length_nil]]
    exact List.drop_left _ _
  rw [hdrop]

/-- On a clean text, the `last_end` bookkeeping of `_extract_sentences`
consumes exactly the sentences and one separating whitespace character
each, so the stripped text after `last_end` is the stripped scan
remainder.  Stated with an arbitrary all-whitespace prefix `w` and a
terminator-free pending run `acc` to make the induction go through. -/
theorem consume_clean : ∀ (l acc w : List Char),
    clean_text l = true →
    (∀ c ∈ acc, is_terminator c = false) →
    (∀ c ∈ w, isPySpace c = true) →
    (rule_sentences_scan acc l).1 ≠ [] →
    pyStrip ((w ++ acc ++ l).drop
        (consume_loop (w ++ acc ++ l)
          ((rule_sentences_scan acc l).1.map pyStrip))) =
      pyStrip (rule_sentences_scan acc l).2
  | [], acc, w, _, _, _, hcap => by
    rw [scan_nil] at hcap
    exact absurd rfl hcap
  | [c], acc, w, _, hacc, hw, hcap => by
    by_cases hc : is_terminator c = true
    · rw [scan_term_single hc]
      simp only [List.map_cons, List.map_nil]
      rw [consume_first hc w [] hw []]
      rw [List.drop_eq_nil_of_le (by
        simp only [consume_loop, List.length_append, List.length_cons,
          List.length_nil]
        try omega)]
    · rw [Bool.not_eq_true] at hc
      rw [scan_nonterm_single hc] at hcap
      exact absurd rfl hcap
  | c :: d :: rest', acc, w, h, hacc, hw, hcap => by
    by_cases hc : is_terminator c = true
    · have hd : isPySpace d = true := clean_term_ws h hc
      rw [scan_term_ws hc hd]
      simp only [List.map_cons]
      rw [consume_first hc w (d :: rest') hw]
      by_cases hcap2 : (rule_sentences_scan [] rest').1 = []
      · rw [hcap2]
        simp only [List.map_nil]
        rw [show consume_loop (d :: rest') ([] : List (List Char)) = 0
          from rfl]
        have hdrop : (w ++ acc ++ (c :: d :: rest')).drop
            (w.length + acc.length + 1 + 0) = d :: rest' := by
          rw [Nat.add_zero,
            show w ++ acc ++ (c :: d :: rest') =
              (w ++ acc ++ [c]) ++ (d :: rest') by simp,
            show w.length + acc.length + 1 = (w ++ acc ++ [c]).length by
              simp only [List.length_append, List.length_cons,
                List.length_nil]]
          exact List.drop_left _ _
        rw [hdrop,
          scan_no_captures rest' (clean_tail (clean_tail h)) [] hcap2,
          List.nil_append]
        exact pyStrip_ws_append (w := [d])
          (by intro x hx; rw [List.mem_singleton.mp hx]; exact hd) rest'
      · have ih := consume_clean rest' [] [d] (clean_tail (clean_tail h))
          (by simp)
          (by intro x hx; rw [List.mem_singleton.mp hx]; exact hd) hcap2
        simp only [List.append_nil, List.nil_append,
          List.singleton_append] at ih
        have hdropT : ∀ m, (w ++ acc ++ (c :: d :: rest')).drop
            (w.length + acc.length + 1 + m) = (d :: rest').drop m := by
          intro m
          rw [show w ++ acc ++ (c :: d :: rest') =
              (w ++ acc ++ [c]) ++ (d :: rest') by simp,
            show w.length + acc.length + 1 + m =
                (w ++ acc ++ [c]).length + m by
              simp only [List.length_append, List.length_cons,
                List.length_nil],
            ← List.drop_drop, List.drop_left]
        rw [hdropT]
        exact ih
    · rw [Bool.not_eq_true] at hc
      rw [scan_cons_nonterm hc] at hcap ⊢
      have ih := consume_clean (d :: rest') (acc ++ [c]) w (clean_tail h)
        (by
          intro x hx
          rcases List.mem_append.mp hx with hx | hx
          · exact hacc x hx
          · rw [List.mem_singleton.mp hx]; exact hc)
        hw hcap
      rw [show w ++ acc ++ (c :: d :: rest') =
        w ++ (acc ++ [c]) ++ (d :: rest') by simp]
      exact ih

/-! ### C8: extract_sentences on clean texts -/

/-- On a clean text, `_extract_sentences` returns exactly the stripped rule
sentences, and (when there is at least one) the stripped scan remainder. -/
theorem extract_clean (B : List Char) (hB : clean_text B = true) :
    extract_sentences B =
      ((rule_sentences_scan [] B).1.map pyStrip,
        if (rule_sentences_scan [] B).1 = [] then B
        else pyStrip (rule_sentences_scan [] B).2) := by
  have hfilter : ((findall_sentences [] B).map pyStrip).filter (· ≠ []) =
      (rule_sentences_scan [] B).1.map pyStrip := by
    rw [findall_eq_scan, List.filter_eq_self]
    intro a ha
    rcases List.mem_map.mp ha with ⟨s, hs, rfl⟩
    simpa using cap_pyStrip_ne hs
  simp only [extract_sentences, hfilter]
  by_cases hcap : (rule_sentences_scan [] B).1 = []
  · rw [hcap]
    simp
  · have hmapne : (rule_sentences_scan [] B).1.map pyStrip ≠ [] := by
      simpa using hcap
    rw [if_neg hmapne, if_neg hcap]
    simp only [Prod.mk.injEq, true_and]
    rw [last_end_loop_eq_consume B _ 0, List.drop_zero, Nat.zero_add]
    have := consume_clean B [] [] hB (by simp) (by simp) hcap
    simpa using this

/-! ### C8: scan modulo strip under whitespace prepending and appending -/

theorem scan_ws_cons_strip {d : Char} (hd : isPySpace d = true)
    {U : List Char} (hU : clean_text U = true) :
    (rule_sentences_scan [] (d :: U)).1.map pyStrip =
        (rule_sentences_scan [] U).1.map pyStrip ∧
    pyStrip (rule_sentences_scan [] (d :: U)).2 =
      pyStrip (rule_sentences_scan [] U).2 := by
  rw [scan_cons_nonterm (space_not_term hd), List.nil_append,
    scan_acc_eq U hU [d]]
  have hdw : ∀ c ∈ ([d] : List Char), isPySpace c = true := by
    intro x hx
    rw [List.mem_singleton.mp hx]
    exact hd
  cases hq : rule_sentences_scan [] U with
  | mk qs qr =>
    cases qs with
    | nil =>
      simp only [prependFirst, List.map_nil]
      exact ⟨trivial, pyStrip_ws_append hdw qr⟩
    | cons s ss =>
      simp only [prependFirst, List.map_cons]
      exact ⟨by rw [pyStrip_ws_append hdw s], trivial⟩

/-- Scanning `T ++ U` agrees, modulo stripping each capture and the final
remainder, with scanning `T` and then scanning `U` from `T`'s remainder. -/
theorem scan_append_strip : ∀ (T U acc : List Char),
    clean_text (T ++ U) = true →
    ((rule_sentences_scan acc (T ++ U)).1.map pyStrip =
      (rule_sentences_scan acc T).1.map pyStrip ++
      (rule_sentences_scan (rule_sentences_scan acc T).2 U).1.map pyStrip ∧
    pyStrip (rule_sentences_scan acc (T ++ U)).2 =
      pyStrip (rule_sentences_scan (rule_sentences_scan acc T).2 U).2)
  | [], U, acc, _ => by
    rw [List.nil_append, scan_nil]
    exact ⟨by simp, rfl⟩
  | [c], U, acc, h => by
    by_cases hc : is_terminator c = true
    · cases U with
      | nil =>
        rw [List.append_nil, scan_term_single hc, scan_nil]
        exact ⟨by simp, rfl⟩
      | cons d U' =>
        have h' : clean_text (c :: d :: U') = true := h
        have hd : isPySpace d = true := clean_term_ws h' hc
        have hU' : clean_text U' = true := clean_tail (clean_tail h')
        rw [show ([c] ++ (d :: U') : List Char) = c :: d :: U' from rfl,
          scan_term_ws hc hd, scan_term_single hc]
        obtain ⟨h1, h2⟩ := scan_ws_cons_strip hd hU'
        refine ⟨?_, ?_⟩
        · simp only [List.map_cons, List.map_nil, List.singleton_append]
          rw [h1]
        · exact h2.symm
    · rw [Bool.not_eq_true] at hc
      rw [show ([c] ++ U : List Char) = c :: U from rfl,
        scan_cons_nonterm hc, scan_nonterm_single hc]
      exact ⟨by simp, rfl⟩
  | c :: d :: rest', U, acc, h => by
    have h' : clean_text (c :: d :: (rest' ++ U)) = true := h
    by_cases hc : is_terminator c = true
    · have hd : isPySpace d = true := clean_term_ws h' hc
      have ih := scan_append_strip rest' U [] (clean_tail (clean_tail h'))
      simp only [List.cons_append]
      rw [scan_term_ws hc hd, scan_term_ws hc hd]
      refine ⟨?_, ?_⟩
      · simp only [List.map_cons, List.cons_append, List.cons.injEq,
          true_and]
        rw [ih.1]
      · exact ih.2
    · rw [Bool.not_eq_true] at hc
      have ih := scan_append_strip (d :: rest') U (acc ++ [c])
        (clean_tail h')
      simp only [List.cons_append]
      rw [scan_cons_nonterm hc, scan_cons_nonterm hc]
      simp only [List.cons_append] at ih
      exact ih

/-! ### C8: the streaming induction -/

/-- On a clean streamed text whose tokens do not end in whitespace, the
streaming loop emits exactly the rule sentences modulo strip.  Stated with
an all-whitespace already-consumed prefix `w` and a capture-free pending
buffer `buf` to make the induction go through. -/
theorem stream_clean : ∀ (tokens : List (List Char)) (buf w : List Char),
    (∀ c ∈ w, isPySpace c = true) →
    clean_text (w ++ buf ++ tokens.flatten) = true →
    no_trailing_space buf = true →
    (∀ t ∈ tokens, no_trailing_space t = true) →
    (rule_sentences_scan [] buf).1 = [] →
    generate_streaming_sentences buf tokens =
      rule_emitted_stripped (w ++ buf ++ tokens.flatten)
  | [], buf, w, hw, hcl, _, _, hcap => by
    simp only [List.flatten_nil, List.append_nil] at hcl ⊢
    have hwt : ∀ c ∈ w, is_terminator c = false :=
      fun c hc => space_not_term (hw c hc)
    have hclb : clean_text buf = true := clean_append_right buf hcl
    have hsb : rule_sentences_scan [] buf = ([], buf) := by
      have h2 := scan_no_captures buf hclb [] hcap
      rw [List.nil_append] at h2
      exact Prod.ext hcap h2
    have hscan : rule_sentences_scan [] (w ++ buf) = ([], w ++ buf) := by
      rw [scan_termfree_append hwt [] buf, List.nil_append,
        scan_acc_eq buf hclb w, hsb]
      rfl
    simp only [generate_streaming_sentences, rule_emitted_stripped, hscan,
      List.map_nil, List.nil_append]
    rw [pyStrip_ws_append hw buf]
  | t :: ts, buf, w, hw, hcl, hnt, htoks, hcap => by
    have hwt : ∀ c ∈ w, is_terminator c = false :=
      fun c hc => space_not_term (hw c hc)
    simp only [List.flatten_cons] at hcl ⊢
    have hassoc : w ++ buf ++ (t ++ ts.flatten) =
        w ++ (buf ++ t) ++ ts.flatten := by simp
    rw [hassoc] at hcl ⊢
    have hclB_flat : clean_text ((buf ++ t) ++ ts.flatten) = true := by
      have h1 := hcl
      rw [List.append_assoc w (buf ++ t) ts.flatten] at h1
      exact clean_append_right _ h1
    have hclB : clean_text (buf ++ t) = true :=
      clean_append_left _ hclB_flat
    have hntB : no_trailing_space (buf ++ t) = true := by
      rw [no_trailing_space_append]
      by_cases ht0 : t = []
      · simpa [ht0] using hnt
      · simpa [ht0] using htoks t (List.mem_cons_self t ts)
    by_cases hcap2 : (rule_sentences_scan [] (buf ++ t)).1 = []
    · have ihA := stream_clean ts (buf ++ t) w hw hcl hntB
        (fun u hu => htoks u (List.mem_cons_of_mem t hu)) hcap2
      have hEA : extract_sentences (buf ++ t) = ([], buf ++ t) := by
        rw [extract_clean (buf ++ t) hclB, hcap2]
        simp
      rw [show generate_streaming_sentences buf (t :: ts) =
          (extract_sentences (buf ++ t)).1 ++
            generate_streaming_sentences (extract_sentences (buf ++ t)).2 ts
        from rfl, hEA]
      show generate_streaming_sentences (buf ++ t) ts =
        rule_emitted_stripped (w ++ (buf ++ t) ++ ts.flatten)
      exact ihA
    · have hEB : extract_sentences (buf ++ t) =
          ((rule_sentences_scan [] (buf ++ t)).1.map pyStrip,
            pyStrip (rule_sentences_scan [] (buf ++ t)).2) := by
        rw [extract_clean (buf ++ t) hclB, if_neg hcap2]
      rw [show generate_streaming_sentences buf (t :: ts) =
          (extract_sentences (buf ++ t)).1 ++
            generate_streaming_sentences (extract_sentences (buf ++ t)).2 ts
        from rfl, hEB]
      show (rule_sentences_scan [] (buf ++ t)).1.map pyStrip ++
          generate_streaming_sentences
            (pyStrip (rule_sentences_scan [] (buf ++ t)).2) ts =
        rule_emitted_stripped (w ++ (buf ++ t) ++ ts.flatten)
      have hrem_tf : ∀ c ∈ (rule_sentences_scan [] (buf ++ t)).2,
          is_terminator c = false :=
        scan_rem_termfree (buf ++ t) [] (by simp)
      obtain ⟨pB, hpB⟩ := scan_rem_suffix (buf ++ t) []
      rw [List.nil_append] at hpB
      have hntrem :
          no_trailing_space (rule_sentences_scan [] (buf ++ t)).2 = true := by
        by_cases hr0 : (rule_sentences_scan [] (buf ++ t)).2 = []
        · rw [hr0]
          rfl
        · have h1 := hntB
          rw [hpB, no_trailing_space_append, if_neg hr0] at h1
          exact h1
      have hclrem : clean_text
          ((rule_sentences_scan [] (buf ++ t)).2 ++ ts.flatten) = true := by
        have h1 := hclB_flat
        rw [hpB, List.append_assoc] at h1
        exact clean_append_right _ h1
      have hinc : pyStrip (rule_sentences_scan [] (buf ++ t)).2 =
          (rule_sentences_scan [] (buf ++ t)).2.dropWhile isPySpace :=
        pyStrip_eq_dropWhile_of_no_trailing hntrem
      have hwnew : ∀ c ∈
          (rule_sentences_scan [] (buf ++ t)).2.takeWhile isPySpace,
          isPySpace c = true := fun _ hc => List.mem_takeWhile_imp hc
      have hdecomp :
          (rule_sentences_scan [] (buf ++ t)).2.takeWhile isPySpace ++
            pyStrip (rule_sentences_scan [] (buf ++ t)).2 =
          (rule_sentences_scan [] (buf ++ t)).2 := by
        rw [hinc, List.takeWhile_append_dropWhile]
      have hclih : clean_text
          ((rule_sentences_scan [] (buf ++ t)).2.takeWhile isPySpace ++
            pyStrip (rule_sentences_scan [] (buf ++ t)).2 ++
            ts.flatten) = true := by
        rw [hdecomp]
        exact hclrem
      have hcapih : (rule_sentences_scan []
          (pyStrip (rule_sentences_scan [] (buf ++ t)).2)).1 = [] := by
        have htf : ∀ c ∈ pyStrip (rule_sentences_scan [] (buf ++ t)).2,
            is_terminator c = false := by
          intro c hc
          rw [hinc] at hc
          exact hrem_tf c ((List.dropWhile_suffix isPySpace).subset hc)
        rw [scan_termfree _ [] htf]
      have ihB := stream_clean ts
        (pyStrip (rule_sentences_scan [] (buf ++ t)).2)
        ((rule_sentences_scan [] (buf ++ t)).2.takeWhile isPySpace)
        hwnew hclih (no_trailing_space_pyStrip _)
        (fun u hu => htoks u (List.mem_cons_of_mem t hu)) hcapih
      rw [ihB]
      have hglue :
          (rule_sentences_scan [] (buf ++ t)).2.takeWhile isPySpace ++
            pyStrip (rule_sentences_scan [] (buf ++ t)).2 ++ ts.flatten =
          (rule_sentences_scan [] (buf ++ t)).2 ++ ts.flatten := by
        rw [hdecomp]
      rw [hglue]
      have hremflat : rule_sentences_scan []
          ((rule_sentences_scan [] (buf ++ t)).2 ++ ts.flatten) =
          rule_sentences_scan (rule_sentences_scan [] (buf ++ t)).2
            ts.flatten := by
        rw [scan_termfree_append hrem_tf [] ts.flatten, List.nil_append]
      have hsag := scan_append_strip (w ++ (buf ++ t)) ts.flatten [] hcl
      have hpre : rule_sentences_scan [] (w ++ (buf ++ t)) =
          prependFirst w (rule_sentences_scan [] (buf ++ t)) := by
        rw [scan_termfree_append hwt [] (buf ++ t), List.nil_append]
        exact scan_acc_eq (buf ++ t) hclB w
      have hcapmap : (rule_sentences_scan [] (w ++ (buf ++ t))).1.map
          pyStrip = (rule_sentences_scan [] (buf ++ t)).1.map pyStrip := by
        rw [hpre]
        cases hsc : rule_sentences_scan [] (buf ++ t) with
        | mk caps rem =>
          cases caps with
          | nil =>
            rw [hsc] at hcap2
            exact absurd rfl hcap2
          | cons s ss =>
            simp only [prependFirst, List.map_cons]
            rw [pyStrip_ws_append hw s]
      have hrem2 : (rule_sentences_scan [] (w ++ (buf ++ t))).2 =
          (rule_sentences_scan [] (buf ++ t)).2 := by
        rw [hpre]
        cases hsc : rule_sentences_scan [] (buf ++ t) with
        | mk caps rem =>
          cases caps with
          | nil =>
            rw [hsc] at hcap2
            exact absurd rfl hcap2
          | cons s ss => rfl
      simp only [rule_emitted_stripped]
      rw [hremflat, hsag.1, hsag.2, hcapmap, hrem2, List.append_assoc]

/-- C8 (amended): when every sentence terminator in the streamed text is
immediately followed by whitespace or ends the stream, and no streamed
token ends with a whitespace character, `on_sentence` is invoked exactly
once per complete sentence of the concatenated streamed text — a run of
non-terminator characters followed by `.`, `!` or `?` — in stream order,
with exactly that sentence's characters modulo leading and trailing
whitespace, and any non-empty remaining buffer at stream close is emitted
(stripped) as one final sentence.  Without these provisos the code
diverges from the rule (see the counterexample): the regex `$` treats
each intermediate buffer end as end-of-stream, and the kept remainder is
stripped of trailing whitespace before the next token is appended. -/
theorem c8_sentence_stream_amended (tokens : List (List Char))
    (hclean : clean_text tokens.flatten = true)
    (htoks : ∀ t ∈ tokens, no_trailing_space t = true) :
    stream_sentences tokens = rule_emitted_stripped tokens.flatten := by
  have h := stream_clean tokens [] [] (by simp) (by simpa using hclean)
    rfl htoks rfl
  simpa [stream_sentences] using h

/-- C8 witness: the two-token stream `"Hallo."`, `" Wie geht es?"` is clean
and no token ends in whitespace; the code emits exactly the two rule
sentences `"Hallo."` and `"Wie geht es?"`. -/
theorem c8_sentence_stream_amended_witness :
    clean_text (["Hallo.".toList, " Wie geht es?".toList] :
      List (List Char)).flatten = true ∧
    stream_sentences ["Hallo.".toList, " Wie geht es?".toList] =
      rule_emitted_stripped (["Hallo.".toList, " Wie geht es?".toList] :
        List (List Char)).flatten ∧
    stream_sentences ["Hallo.".toList, " Wie geht es?".toList] =
      ["Hallo.".toList, "Wie geht es?".toList] :=
  ⟨by decide,
   c8_sentence_stream_amended ["Hallo.".toList, " Wie geht es?".toList]
     (by decide) (by decide),
   by decide⟩
